import Mathlib

/-!
Verification of the plain-rewritable metadata storage layer
(src/Disks/ObjectStorages/MetadataStorageFromPlainRewritableObjectStorage.cpp).

Paths, keys and marker bodies are modelled as lists of characters
(byte strings).  The PathMap container (std::map over paths, declared in a
header outside the visible sources) is modelled from the spec as an
association list ordered by lexicographic byte comparison of its keys.
The object storage handle is modelled as a list of iterated keys plus a
read oracle; the concurrent loader is modelled as a fold over the keys in
scheduling order, which is exactly the "sequence of insertions" the spec
reasons about.
-/

namespace PlainRW

/-- Byte strings: paths, keys, and marker bodies. -/
abbrev Str := List Char

/-- Lexicographic byte-order comparison on strings.  Modelled from the spec:
the PathMap key type and its comparator live in a header that is not part of
the visible sources; the spec states the map is ordered by lexicographic
byte ordering of the local path. -/
def strLtB : Str → Str → Bool
  | [], [] => false
  | [], _ :: _ => true
  | _ :: _, [] => false
  | a :: as, b :: bs => if a < b then true else if b < a then false else strLtB as bs

/-- Character-wise starts-with check, as std::string::starts_with. -/
def isPrefixOfB : Str → Str → Bool
  | [], _ => true
  | _ :: _, [] => false
  | a :: as, b :: bs => a == b && isPrefixOfB as bs

/-- Index of the first '/' in a string, if any. -/
def firstSlashIdx : Str → Option Nat
  | [] => none
  | c :: cs => if c = '/' then some 0 else (firstSlashIdx cs).map (· + 1)

/-- Index of the first '/' at or after a given position, as
std::string::find(slash, pos). -/
def findSlashFrom (path : Str) (pos : Nat) : Option Nat :=
  (firstSlashIdx (path.drop pos)).map (pos + ·)

/-- First-some choice on options. -/
def optOr {α : Type} : Option α → Option α → Option α
  | some x, _ => some x
  | none, b => b

/-- The ordered local-path to remote-prefix map (std::map, see strLtB). -/
abbrev PathMap := List (Str × Str)

/-- First binding of a key in an association list (std::map / unordered_map
lookup; keys are unique in every map this development builds). -/
def lookupB (m : List (Str × Str)) (k : Str) : Option Str :=
  (m.find? (fun e => e.1 == k)).map (fun e => e.2)

/-- Whether a key is present in an association list. -/
def containsKeyB (m : List (Str × Str)) (k : Str) : Bool :=
  m.any (fun e => e.1 == k)

/-- Order-preserving insertion into a map sorted by strLtB on keys. -/
def sortedInsert : PathMap → Str × Str → PathMap
  | [], e => [e]
  | x :: xs, e => if strLtB e.1 x.1 then e :: x :: xs else x :: sortedInsert xs e

/-- std::map::emplace: insert only when the key is absent; the Bool reports
whether the insertion happened (res.second in the source). -/
def emplace (m : PathMap) (k v : Str) : PathMap × Bool :=
  if containsKeyB m k then (m, false) else (sortedInsert m (k, v), true)

/-- std::filesystem::path::filename: the component after the last '/'. -/
def filenameOf (s : Str) : Str :=
  (s.reverse.takeWhile (fun c => c != '/')).reverse

/-- std::filesystem::path::parent_path: the path with its filename and the
separators before it removed; a lone root "/" is preserved, and a path with
no directory component has the empty parent. -/
def parentPathOf (s : Str) : Str :=
  let pre := s.take (s.length - (filenameOf s).length)
  let stripped := (pre.reverse.dropWhile (fun c => c == '/')).reverse
  if stripped = [] then (if pre = [] then [] else ['/']) else stripped

/-- The marker file name constant PREFIX_PATH_FILE_NAME. -/
def PREFIX_PATH_FILE_NAME : Str := ("prefix.path" : String).data

/-- Outcome of reading one marker object: its body, a NO_SUCH_KEY condition,
or any other (fatal) failure carrying an error message. -/
inductive ReadResult : Type
  | ok (body : Str)
  | notFound
  | fatal (msg : Str)
deriving DecidableEq

/-- State accumulated by loadPathPrefixMap: the map under construction, the
number of conflict warnings logged, and the first fatal error observed. -/
structure LoadState : Type where
  map : PathMap
  warnings : Nat
  firstError : Option Str
deriving DecidableEq

/-- The empty state the loader starts from. -/
def initLoadState : LoadState := ⟨[], 0, none⟩

/-- The body a read oracle yields for a key (meaningful when the read is ok). -/
def bodyOf (read : Str → ReadResult) (k : Str) : Str :=
  match read k with
  | .ok b => b
  | _ => []

/-- One scheduled unit of loadPathPrefixMap for a marker key: read the object;
a NO_SUCH_KEY outcome contributes nothing; any other failure is recorded as
the first error if none was recorded yet; a successful read emplaces
(body, parent of the key) and logs a conflict warning when the local path is
already mapped. -/
def processMarker (read : Str → ReadResult) (st : LoadState) (path : Str) : LoadState :=
  match read path with
  | .notFound => st
  | .fatal e => { st with firstError := optOr st.firstError (some e) }
  | .ok body =>
      let r := emplace st.map body (parentPathOf path)
      { st with map := r.1, warnings := if r.2 then st.warnings else st.warnings + 1 }

/-- Run the scheduled units in scheduling order. -/
def runMarkers (read : Str → ReadResult) (st : LoadState) (ms : List Str) : LoadState :=
  ms.foldl (processMarker read) st

/-- The keys the loader schedules work for: those whose final path component
equals the marker file name. -/
def markerKeys (keys : List Str) : List Str :=
  keys.filter (fun k => filenameOf k == PREFIX_PATH_FILE_NAME)

/-- The loader's final state after iterating every key under the root and
draining all scheduled units. -/
def loadRun (read : Str → ReadResult) (keys : List Str) : LoadState :=
  runMarkers read initLoadState (markerKeys keys)

/-- loadPathPrefixMap as observed by its caller: the built map, unless a
fatal error was recorded, in which case the first such error is rethrown by
waitForAllToFinishAndRethrowFirstError. -/
def loadPathPrefixMap (read : Str → ReadResult) (keys : List Str) : Except Str PathMap :=
  match (loadRun read keys).firstError with
  | some e => .error e
  | none => .ok (loadRun read keys).map

/-- Step 1 of getDirectChildrenOnRewritableDisk: scan the PathMap from
lower_bound(local_path), stop at the first key that does not start with
local_path, keep the entries with exactly one '/' past the query length, and
map each remote prefix to the local child name without its trailing
separator. -/
def buildRemoteToLocal (pm : PathMap) (local_path : Str) : List (Str × Str) :=
  ((pm.dropWhile (fun e => strLtB e.1 local_path)).takeWhile
      (fun e => isPrefixOfB local_path e.1)).filterMap
    (fun e =>
      if (e.1.drop local_path.length).count '/' == 1 then
        some (e.2, (e.1.drop local_path.length).dropLast)
      else none)

/-- Classification of one listed remote path in getDirectChildrenOnRewritableDisk:
none means the entry is skipped, some gives the recorded child name.
Mirrors the source: slash search from storage_key.size(), the file branch
with the marker-name skip list, and the subdirectory branch with the
remote-to-local table lookup on path.substr(0, slash_pos). -/
def classifyEntry (storage_key : Str) (r2l : List (Str × Str)) (path : Str) : Option Str :=
  let child_pos := storage_key.length
  match findSlashFrom path child_pos with
  | none =>
      let filename := path.drop child_pos
      if filename = PREFIX_PATH_FILE_NAME then none else some filename
  | some slash_pos =>
      match lookupB r2l (path.take slash_pos) with
      | some localName => some localName
      | none => some ((path.drop child_pos).take (slash_pos - child_pos))

/-- The same classification written the way the spec phrases it: take the key
suffix after the storage key; a suffix with no separator is a file name,
skipped when it equals the marker file name; a suffix with a separator is
resolved through the remote-to-local table keyed by the key up to the first
separator, falling back to the remote substring up to the first separator. -/
def classifySpecSide (storage_key : Str) (r2l : List (Str × Str)) (path : Str) : Option Str :=
  let suffix := path.drop storage_key.length
  match firstSlashIdx suffix with
  | none => if suffix = PREFIX_PATH_FILE_NAME then none else some suffix
  | some i =>
      match lookupB r2l (path.take (storage_key.length + i)) with
      | some localName => some localName
      | none => some (suffix.take i)

/-- getDirectChildrenOnRewritableDisk: classify every listed remote path and
collect the recorded names into a duplicate-free set (the unordered_set
duplicates_filter; element order is not part of the source's contract). -/
def getDirectChildrenOnRewritableDisk
    (storage_key : Str) (remote_paths : List Str) (local_path : Str) (pm : PathMap) : List Str :=
  (remote_paths.filterMap (classifyEntry storage_key (buildRemoteToLocal pm local_path))).dedup

/-- The object storage handle as the metadata layer sees it: the keys its
iterator yields under the common prefix, the read oracle for marker objects,
and the write-once capability flag. -/
structure ObjectStorage : Type where
  keys : List Str
  read : Str → ReadResult
  isWriteOnce : Bool

/-- Why construction of the metadata layer can fail. -/
inductive CtorError : Type
  | loadError (msg : Str)
  | writeOnceError
deriving DecidableEq

/-- Observable events of construction, in program order. -/
inductive Event : Type
  | iterated (key : Str)
  | metricAdd (n : Nat)
  | checkedWriteOnce
  | threwWriteOnce
  | threwLoad (msg : Str)
  | installedKeyGen
  | metricSub (n : Nat)
deriving DecidableEq

/-- The loader state produced while constructing over a given storage. -/
def loadRunS (s : ObjectStorage) : LoadState := loadRun s.read s.keys

/-- The MetadataStorageFromPlainRewritableObjectStorage constructor as seen
by the caller: the member initializer runs loadPathPrefixMap, then the body
checks isWriteOnce and throws LOGICAL_ERROR for write-once storage. -/
def construct (s : ObjectStorage) : Except CtorError PathMap :=
  match (loadRunS s).firstError with
  | some e => .error (.loadError e)
  | none => if s.isWriteOnce then .error .writeOnceError else .ok (loadRunS s).map

/-- The ordered events of construction: the member initializer iterates the
whole key space (and publishes the metric on success) before the constructor
body reaches the write-once check. -/
def constructEvents (s : ObjectStorage) : List Event :=
  (s.keys.map Event.iterated) ++
    (match (loadRunS s).firstError with
     | some e => [Event.threwLoad e]
     | none =>
         [Event.metricAdd (loadRunS s).map.length, Event.checkedWriteOnce] ++
           (if s.isWriteOnce then [Event.threwWriteOnce] else [Event.installedKeyGen]))

/-- Net change of the directory-map-size metric contributed by construction:
CurrentMetrics::add runs at the end of a successful loadPathPrefixMap, and a
later throw in the constructor body does not undo it (the destructor of a
never-constructed object does not run). -/
def constructMetricDelta (s : ObjectStorage) : Int :=
  match (loadRunS s).firstError with
  | some _ => 0
  | none => ((loadRunS s).map.length : Int)

/-- Net change of the directory-map-size metric contributed by the
destructor: CurrentMetrics::sub of the current map size. -/
def destructorMetricDelta (m : PathMap) : Int := -(m.length : Int)

/-- The fatal-error content of a read outcome, if any. -/
def fatalOf : ReadResult → Option Str
  | .fatal e => some e
  | _ => none

/-- Whether a unit of work contributes anything at all: a NO_SUCH_KEY read
is swallowed and the unit is a no-op. -/
def survives (read : Str → ReadResult) (k : Str) : Bool :=
  match read k with
  | .notFound => false
  | _ => true

/-- The set of local paths bound in a map. -/
def keysOf (m : PathMap) : Finset Str := (m.map Prod.fst).toFinset

/-- Key uniqueness of an association list. -/
def NodupK (m : PathMap) : Prop := (m.map Prod.fst).Nodup

/-- Concrete inputs for witnesses: four distinct marker keys with distinct
bodies. -/
def keysW : List Str :=
  [("p1/file1" : String).data, ("p1/prefix.path" : String).data,
   ("p2/prefix.path" : String).data, ("top.txt" : String).data]

/-- Read oracle for keysW: every marker body is distinct. -/
def readW : Str → ReadResult := fun k =>
  if k == ("p1/prefix.path" : String).data then .ok ("/a/b/" : String).data
  else if k == ("p2/prefix.path" : String).data then .ok ("/a/c/" : String).data
  else .notFound

/-- Read oracle with a duplicated local path across two markers. -/
def readDup : Str → ReadResult := fun k =>
  if k == ("p1/prefix.path" : String).data then .ok ("/a/b/" : String).data
  else if k == ("p2/prefix.path" : String).data then .ok ("/a/b/" : String).data
  else .notFound

/-- Read oracle mixing a not-found marker with a healthy one. -/
def readNF : Str → ReadResult := fun k =>
  if k == ("p1/prefix.path" : String).data then .notFound
  else if k == ("p2/prefix.path" : String).data then .ok ("/a/c/" : String).data
  else .notFound

/-- Read oracle with two fatal failures, to exhibit first-error-wins. -/
def readFatal : Str → ReadResult := fun k =>
  if k == ("p1/prefix.path" : String).data then .fatal ("io1" : String).data
  else if k == ("p2/prefix.path" : String).data then .fatal ("io2" : String).data
  else .notFound

/-- A write-once storage with one healthy marker key, for the C5 and C7
counterexamples. -/
def storageWO : ObjectStorage :=
  ⟨[("q/prefix.path" : String).data],
   fun k => if k == ("q/prefix.path" : String).data then .ok ("/d/" : String).data else .notFound,
   true⟩

/-- The same storage with write-once disabled, for the C8 witness. -/
def storageOK : ObjectStorage :=
  ⟨[("q/prefix.path" : String).data],
   fun k => if k == ("q/prefix.path" : String).data then .ok ("/d/" : String).data else .notFound,
   false⟩

/-- The Path Map of the worked example: the queried directory "/a/" has two
mapped children. -/
def pmEx : PathMap :=
  [(("/a/b/" : String).data, ("p1" : String).data),
   (("/a/c/" : String).data, ("p2" : String).data)]

/-- The flat remote listing of the worked example. -/
def listingEx : List Str :=
  [("p1/file1" : String).data, ("p2/file2" : String).data,
   ("/top.txt" : String).data, ("/prefix.path" : String).data]

/-! String-order lemmas: the lexicographic byte order interacts with the
starts-with relation so that keys sharing a given string prefix form a
contiguous range of the order. -/

theorem strLtB_irrefl (s : Str) : strLtB s s = false := by
  induction s with
  | nil => rfl
  | cons a as ih => simp [strLtB, lt_irrefl, ih]

theorem strLtB_trans (a : Str) : ∀ b c : Str,
    strLtB a b = true → strLtB b c = true → strLtB a c = true := by
  induction a with
  | nil =>
    intro b c h1 h2
    cases b with
    | nil => simp [strLtB] at h1
    | cons y ys =>
      cases c with
      | nil => simp [strLtB] at h2
      | cons z zs => simp [strLtB]
  | cons x xs ih =>
    intro b c h1 h2
    cases b with
    | nil => simp [strLtB] at h1
    | cons y ys =>
      cases c with
      | nil => simp [strLtB] at h2
      | cons z zs =>
        simp only [strLtB] at h1 h2 ⊢
        by_cases hxy : x < y
        · by_cases hyz : y < z
          · simp [lt_trans hxy hyz]
          · by_cases hzy : z < y
            · simp [hyz, hzy] at h2
            · have hyz2 : y = z := le_antisymm (not_lt.mp hzy) (not_lt.mp hyz)
              subst hyz2
              simp [hxy]
        · by_cases hyx : y < x
          · simp [hxy, hyx] at h1
          · have hxy2 : x = y := le_antisymm (not_lt.mp hyx) (not_lt.mp hxy)
            subst hxy2
            simp only [lt_irrefl, if_false] at h1
            by_cases hyz : x < z
            · simp [hyz]
            · by_cases hzy : z < x
              · simp [hyz, hzy] at h2
              · have hyz2 : x = z := le_antisymm (not_lt.mp hzy) (not_lt.mp hyz)
                subst hyz2
                simp only [lt_irrefl, if_false] at h2 ⊢
                exact ih ys zs h1 h2

theorem strLtB_asymm (a b : Str) (h : strLtB a b = true) : strLtB b a = false := by
  cases hba : strLtB b a
  · rfl
  · have := strLtB_trans a b a h hba
    rw [strLtB_irrefl] at this
    exact this.symm

theorem prefixB_not_lt (p : Str) : ∀ k : Str, isPrefixOfB p k = true → strLtB k p = false := by
  induction p with
  | nil =>
    intro k _
    cases k <;> rfl
  | cons c p2 ih =>
    intro k h
    cases k with
    | nil => simp [isPrefixOfB] at h
    | cons a k2 =>
      simp only [isPrefixOfB, Bool.and_eq_true, beq_iff_eq] at h
      obtain ⟨rfl, h2⟩ := h
      simp [strLtB, lt_irrefl, ih k2 h2]

theorem after_prefixB_gt (p : Str) : ∀ k k2 : Str,
    strLtB k p = false → isPrefixOfB p k = false → isPrefixOfB p k2 = true →
    strLtB k2 k = true := by
  induction p with
  | nil =>
    intro k k2 _ h2 _
    simp [isPrefixOfB] at h2
  | cons c p2 ih =>
    intro k k2 h1 h2 h3
    cases k2 with
    | nil => simp [isPrefixOfB] at h3
    | cons b k3 =>
      simp only [isPrefixOfB, Bool.and_eq_true, beq_iff_eq] at h3
      obtain ⟨rfl, h3b⟩ := h3
      cases k with
      | nil => simp [strLtB] at h1
      | cons a k4 =>
        simp only [strLtB] at h1 ⊢
        by_cases hac : a < c
        · simp [hac] at h1
        · by_cases hca : c < a
          · simp [hca]
          · have heq : a = c := le_antisymm (not_lt.mp hca) (not_lt.mp hac)
            subst heq
            simp only [lt_irrefl, if_false] at h1 ⊢
            simp only [isPrefixOfB, beq_self_eq_true, Bool.true_and] at h2
            exact ih k4 k3 h1 h2 h3b

/-! The prefix-bounded range scan of the ordered map visits exactly the
keys that start with the query path. -/

theorem scan_eq_filter (lp : Str) (pm : PathMap)
    (hs : pm.Pairwise (fun a b => strLtB a.1 b.1 = true)) :
    ((pm.dropWhile (fun e => strLtB e.1 lp)).takeWhile (fun e => isPrefixOfB lp e.1))
      = pm.filter (fun e => isPrefixOfB lp e.1) := by
  induction pm with
  | nil => rfl
  | cons e rest ih =>
    rw [List.pairwise_cons] at hs
    obtain ⟨hall, hrest⟩ := hs
    by_cases hlt : strLtB e.1 lp = true
    · have hnp : isPrefixOfB lp e.1 = false := by
        cases hpe : isPrefixOfB lp e.1
        · rfl
        · rw [prefixB_not_lt lp e.1 hpe] at hlt
          exact absurd hlt (by simp)
      simp only [List.dropWhile_cons, hlt, if_true, List.filter_cons, hnp, if_false,
        Bool.false_eq_true]
      exact ih hrest
    · have hlt2 : strLtB e.1 lp = false := by
        cases h : strLtB e.1 lp
        · rfl
        · exact absurd h hlt
      by_cases hp : isPrefixOfB lp e.1 = true
      · rw [List.dropWhile_cons_of_neg (by simp [hlt2]), List.takeWhile_cons_of_pos (by simp [hp]),
          List.filter_cons_of_pos (by simp [hp])]
        cases rest with
        | nil => rfl
        | cons y ys =>
          have hy : strLtB y.1 lp = false := by
            cases hyl : strLtB y.1 lp
            · rfl
            · have hety := hall y (by simp)
              have := strLtB_trans e.1 y.1 lp hety hyl
              rw [this] at hlt2
              exact absurd hlt2 (by simp)
          have ih2 := ih hrest
          rw [List.dropWhile_cons_of_neg (by simp [hy])] at ih2
          rw [ih2]
      · have hp2 : isPrefixOfB lp e.1 = false := by
          cases h : isPrefixOfB lp e.1
          · rfl
          · exact absurd h hp
        have hprest : ∀ x ∈ rest, ¬ isPrefixOfB lp x.1 = true := by
          intro x hx hpx
          have hgt := after_prefixB_gt lp e.1 x.1 hlt2 hp2 hpx
          have hlt3 := hall x hx
          have := strLtB_asymm e.1 x.1 hlt3
          rw [hgt] at this
          exact absurd this (by simp)
        rw [List.dropWhile_cons_of_neg (by simp [hlt2]), List.takeWhile_cons_of_neg (by simp [hp2]),
          List.filter_cons_of_neg (by simp [hp2])]
        exact (List.filter_eq_nil_iff.mpr hprest).symm

/-- filterMap with a guarded some is map over filter. -/
theorem filterMap_guard {α β : Type} (q : α → Bool) (g : α → β) (l : List α) :
    l.filterMap (fun a => if q a then some (g a) else none) = (l.filter q).map g := by
  induction l with
  | nil => rfl
  | cons x xs ih =>
    by_cases hq : q x = true
    · simp [List.filterMap_cons, List.filter_cons, hq, ih]
    · have hq2 : q x = false := by
        cases h : q x
        · rfl
        · exact absurd h hq
      simp [List.filterMap_cons, List.filter_cons, hq2, ih]

/-! Association-list lemmas for the sorted map built by std::map::emplace. -/

theorem sortedInsert_perm (m : PathMap) (e : Str × Str) :
    List.Perm (sortedInsert m e) (e :: m) := by
  induction m with
  | nil => exact List.Perm.refl _
  | cons x xs ih =>
    by_cases hlt : strLtB e.1 x.1 = true
    · simp [sortedInsert, hlt]
    · have hlt2 : strLtB e.1 x.1 = false := by
        cases h : strLtB e.1 x.1
        · rfl
        · exact absurd h hlt
      simp only [sortedInsert, hlt2, Bool.false_eq_true, if_false]
      exact (ih.cons x).trans (List.Perm.swap e x xs)

theorem mem_sortedInsert (m : PathMap) (e p : Str × Str) :
    p ∈ sortedInsert m e ↔ p = e ∨ p ∈ m := by
  rw [(sortedInsert_perm m e).mem_iff]
  simp

theorem length_sortedInsert (m : PathMap) (e : Str × Str) :
    (sortedInsert m e).length = m.length + 1 := by
  rw [(sortedInsert_perm m e).length_eq]
  rfl

theorem containsKeyB_iff (m : PathMap) (k : Str) :
    containsKeyB m k = true ↔ ∃ e ∈ m, e.1 = k := by
  simp [containsKeyB, List.any_eq_true]

theorem containsKeyB_false_iff (m : PathMap) (k : Str) :
    containsKeyB m k = false ↔ ∀ e ∈ m, e.1 ≠ k := by
  constructor
  · intro h e he hek
    have : containsKeyB m k = true := (containsKeyB_iff m k).mpr ⟨e, he, hek⟩
    rw [h] at this
    exact absurd this (by simp)
  · intro h
    cases hc : containsKeyB m k
    · rfl
    · obtain ⟨e, he, hek⟩ := (containsKeyB_iff m k).mp hc
      exact absurd hek (h e he)

theorem keysOf_sortedInsert (m : PathMap) (e : Str × Str) :
    keysOf (sortedInsert m e) = insert e.1 (keysOf m) := by
  ext a
  rw [keysOf, keysOf, List.mem_toFinset, Finset.mem_insert, List.mem_toFinset]
  constructor
  · intro h
    obtain ⟨p, hp, hpe⟩ := List.mem_map.mp h
    rcases (mem_sortedInsert m e p).mp hp with h2 | h2
    · exact Or.inl (by rw [← hpe, h2])
    · exact Or.inr (List.mem_map.mpr ⟨p, h2, hpe⟩)
  · intro h
    rcases h with h2 | h2
    · exact List.mem_map.mpr ⟨e, (mem_sortedInsert m e e).mpr (Or.inl rfl), h2.symm⟩
    · obtain ⟨p, hp, hpe⟩ := List.mem_map.mp h2
      exact List.mem_map.mpr ⟨p, (mem_sortedInsert m e p).mpr (Or.inr hp), hpe⟩

theorem nodupK_sortedInsert (m : PathMap) (e : Str × Str)
    (hm : NodupK m) (hc : containsKeyB m e.1 = false) : NodupK (sortedInsert m e) := by
  have hperm : List.Perm ((sortedInsert m e).map Prod.fst) (e.1 :: m.map Prod.fst) :=
    (sortedInsert_perm m e).map Prod.fst
  rw [NodupK, hperm.nodup_iff, List.nodup_cons]
  refine ⟨?_, hm⟩
  intro hmem
  obtain ⟨p, hp, hpe⟩ := List.mem_map.mp hmem
  exact absurd hpe ((containsKeyB_false_iff m e.1).mp hc p hp)

theorem lookupB_eq_none (m : PathMap) (k : Str) (h : containsKeyB m k = false) :
    lookupB m k = none := by
  have hall : ∀ e ∈ m, ¬ (e.1 == k) = true := by
    intro e he hbe
    exact absurd (beq_iff_eq.mp hbe) ((containsKeyB_false_iff m k).mp h e he)
  simp [lookupB, List.find?_eq_none.mpr hall]

theorem lookupB_isSome_of_contains (m : PathMap) (k : Str) (h : containsKeyB m k = true) :
    ∃ v, lookupB m k = some v := by
  obtain ⟨e, he, hek⟩ := (containsKeyB_iff m k).mp h
  have hsome : (m.find? (fun e => e.1 == k)).isSome :=
    List.find?_isSome.mpr ⟨e, he, by simp [hek]⟩
  obtain ⟨w, hw⟩ := Option.isSome_iff_exists.mp hsome
  exact ⟨w.2, by simp [lookupB, hw]⟩

theorem lookupB_sortedInsert_self (m : PathMap) (k v : Str)
    (h : containsKeyB m k = false) : lookupB (sortedInsert m (k, v)) k = some v := by
  induction m with
  | nil => simp [sortedInsert, lookupB, List.find?]
  | cons x xs ih =>
    have hx : x.1 ≠ k := (containsKeyB_false_iff _ _).mp h x (by simp)
    have hxs : containsKeyB xs k = false := by
      rw [containsKeyB_false_iff]
      intro e he
      exact (containsKeyB_false_iff _ _).mp h e (by simp [he])
    by_cases hlt : strLtB k x.1 = true
    · simp [sortedInsert, hlt, lookupB, List.find?]
    · have hlt2 : strLtB k x.1 = false := by
        cases h2 : strLtB k x.1
        · rfl
        · exact absurd h2 hlt
      have hbe : (x.1 == k) = false := by
        cases h2 : x.1 == k
        · rfl
        · exact absurd (beq_iff_eq.mp h2) hx
      simp only [sortedInsert, hlt2, Bool.false_eq_true, if_false, lookupB]
      rw [List.find?_cons_of_neg _ (by simp [hbe])]
      exact ih hxs

theorem lookupB_sortedInsert_ne (m : PathMap) (k v b : Str) (hne : b ≠ k) :
    lookupB (sortedInsert m (k, v)) b = lookupB m b := by
  have hbe : (k == b) = false := by
    cases h2 : k == b
    · rfl
    · exact absurd (beq_iff_eq.mp h2).symm hne
  induction m with
  | nil =>
    simp only [sortedInsert, lookupB]
    rw [List.find?_cons_of_neg _ (by simp [hbe])]
  | cons x xs ih =>
    by_cases hlt : strLtB k x.1 = true
    · simp only [sortedInsert, hlt, if_true, lookupB]
      rw [List.find?_cons_of_neg _ (by simp [hbe])]
    · have hlt2 : strLtB k x.1 = false := by
        cases h2 : strLtB k x.1
        · rfl
        · exact absurd h2 hlt
      simp only [sortedInsert, hlt2, Bool.false_eq_true, if_false, lookupB]
      by_cases hxb : (x.1 == b) = true
      · rw [List.find?_cons_of_pos _ (by simp [hxb]), List.find?_cons_of_pos _ (by simp [hxb])]
      · have hxb2 : (x.1 == b) = false := by
          cases h2 : x.1 == b
          · rfl
          · exact absurd h2 hxb
        rw [List.find?_cons_of_neg _ (by simp [hxb2]), List.find?_cons_of_neg _ (by simp [hxb2])]
        exact ih

/-! Loader lemmas: behavior of the fold over the scheduled marker units. -/

theorem optOr_none_right {α : Type} (a : Option α) : optOr a none = a := by
  cases a <;> rfl

theorem optOr_assoc {α : Type} (a b c : Option α) :
    optOr (optOr a b) c = optOr a (optOr b c) := by
  cases a <;> rfl

theorem runMarkers_nil (read : Str → ReadResult) (st : LoadState) :
    runMarkers read st [] = st := rfl

theorem runMarkers_cons (read : Str → ReadResult) (st : LoadState) (k : Str) (ms : List Str) :
    runMarkers read st (k :: ms) = runMarkers read (processMarker read st k) ms := rfl

theorem processMarker_ok_firstError (read : Str → ReadResult) (st : LoadState) (k : Str)
    (b : Str) (h : read k = .ok b) :
    (processMarker read st k).firstError = st.firstError := by
  simp only [processMarker, h]

theorem runMarkers_firstError (read : Str → ReadResult) (ms : List Str) : ∀ st : LoadState,
    (runMarkers read st ms).firstError
      = optOr st.firstError (ms.findSome? (fun k => fatalOf (read k))) := by
  induction ms with
  | nil =>
    intro st
    rw [runMarkers_nil, List.findSome?_nil, optOr_none_right]
  | cons k rest ih =>
    intro st
    rw [runMarkers_cons, ih, List.findSome?_cons]
    cases hr : read k with
    | ok b => simp only [processMarker, hr, fatalOf]
    | notFound => simp only [processMarker, hr, fatalOf]
    | fatal e =>
      simp only [processMarker, hr, fatalOf]
      rw [optOr_assoc]
      rfl

theorem runMarkers_drop_notFound (read : Str → ReadResult) (ms : List Str) : ∀ st : LoadState,
    runMarkers read st ms = runMarkers read st (ms.filter (survives read)) := by
  induction ms with
  | nil => intro st; rfl
  | cons k rest ih =>
    intro st
    rw [runMarkers_cons]
    cases hr : read k with
    | notFound =>
      have h1 : processMarker read st k = st := by simp [processMarker, hr]
      have h2 : survives read k = false := by simp [survives, hr]
      rw [h1, List.filter_cons_of_neg (by simp [h2])]
      exact ih st
    | ok b =>
      have h2 : survives read k = true := by simp [survives, hr]
      rw [List.filter_cons_of_pos (by simp [h2]), runMarkers_cons]
      exact ih _
    | fatal e =>
      have h2 : survives read k = true := by simp [survives, hr]
      rw [List.filter_cons_of_pos (by simp [h2]), runMarkers_cons]
      exact ih _

theorem runMarkers_size_sum (read : Str → ReadResult) (ms : List Str) : ∀ st : LoadState,
    (∀ k ∈ ms, read k = .ok (bodyOf read k)) →
    (runMarkers read st ms).map.length + (runMarkers read st ms).warnings
      = st.map.length + st.warnings + ms.length := by
  induction ms with
  | nil => intro st _; rw [runMarkers_nil]; rfl
  | cons k rest ih =>
    intro st hok
    have hr : read k = .ok (bodyOf read k) := hok k (by simp)
    rw [runMarkers_cons]
    rw [ih _ (fun k2 h2 => hok k2 (by simp [h2]))]
    by_cases hc : containsKeyB st.map (bodyOf read k) = true
    · have : processMarker read st k
          = { st with warnings := st.warnings + 1 } := by
        simp [processMarker, hr, emplace, hc]
      rw [this]
      simp only [List.length_cons]
      omega
    · have hc2 : containsKeyB st.map (bodyOf read k) = false := by
        cases h2 : containsKeyB st.map (bodyOf read k)
        · rfl
        · exact absurd h2 hc
      have : processMarker read st k
          = { st with map := sortedInsert st.map (bodyOf read k, parentPathOf k) } := by
        simp [processMarker, hr, emplace, hc2]
      rw [this]
      simp only [length_sortedInsert, List.length_cons]
      omega

theorem runMarkers_nodupK (read : Str → ReadResult) (ms : List Str) : ∀ st : LoadState,
    NodupK st.map → NodupK (runMarkers read st ms).map := by
  induction ms with
  | nil => intro st h; exact h
  | cons k rest ih =>
    intro st h
    rw [runMarkers_cons]
    refine ih _ ?_
    cases hr : read k with
    | notFound => simpa [processMarker, hr] using h
    | fatal e => simpa [processMarker, hr] using h
    | ok b =>
      by_cases hc : containsKeyB st.map b = true
      · simpa [processMarker, hr, emplace, hc] using h
      · have hc2 : containsKeyB st.map b = false := by
          cases h2 : containsKeyB st.map b
          · rfl
          · exact absurd h2 hc
        have : (processMarker read st k).map = sortedInsert st.map (b, parentPathOf k) := by
          simp [processMarker, hr, emplace, hc2]
        rw [this]
        exact nodupK_sortedInsert st.map (b, parentPathOf k) h hc2

theorem runMarkers_keysOf (read : Str → ReadResult) (ms : List Str) : ∀ st : LoadState,
    (∀ k ∈ ms, read k = .ok (bodyOf read k)) →
    keysOf (runMarkers read st ms).map = keysOf st.map ∪ (ms.map (bodyOf read)).toFinset := by
  induction ms with
  | nil =>
    intro st _
    rw [runMarkers_nil]
    simp [keysOf]
  | cons k rest ih =>
    intro st hok
    have hr : read k = .ok (bodyOf read k) := hok k (by simp)
    rw [runMarkers_cons, ih _ (fun k2 h2 => hok k2 (by simp [h2]))]
    rw [List.map_cons, List.toFinset_cons]
    by_cases hc : containsKeyB st.map (bodyOf read k) = true
    · have hmap : (processMarker read st k).map = st.map := by
        simp [processMarker, hr, emplace, hc]
      rw [hmap]
      have hb : bodyOf read k ∈ keysOf st.map := by
        obtain ⟨e, he, h1⟩ := (containsKeyB_iff _ _).mp hc
        rw [keysOf, List.mem_toFinset]
        exact List.mem_map.mpr ⟨e, he, h1⟩
      ext a
      simp only [Finset.mem_union, Finset.mem_insert]
      constructor
      · intro h2
        rcases h2 with h3 | h3
        · exact Or.inl h3
        · exact Or.inr (Or.inr h3)
      · intro h2
        rcases h2 with h3 | h3 | h3
        · exact Or.inl h3
        · exact Or.inl (by rw [h3]; exact hb)
        · exact Or.inr h3
    · have hc2 : containsKeyB st.map (bodyOf read k) = false := by
        cases h2 : containsKeyB st.map (bodyOf read k)
        · rfl
        · exact absurd h2 hc
      have hmap : (processMarker read st k).map
          = sortedInsert st.map (bodyOf read k, parentPathOf k) := by
        simp [processMarker, hr, emplace, hc2]
      rw [hmap, keysOf_sortedInsert]
      ext a
      simp only [Finset.mem_union, Finset.mem_insert]
      tauto

theorem runMarkers_lookup (read : Str → ReadResult) (ms : List Str) : ∀ st : LoadState,
    (∀ k ∈ ms, read k = .ok (bodyOf read k)) → ∀ b : Str,
    lookupB (runMarkers read st ms).map b
      = optOr (lookupB st.map b)
          ((ms.find? (fun k => bodyOf read k == b)).map (fun k => parentPathOf k)) := by
  induction ms with
  | nil =>
    intro st _ b
    rw [runMarkers_nil, List.find?_nil]
    cases lookupB st.map b <;> rfl
  | cons k rest ih =>
    intro st hok b
    have hr : read k = .ok (bodyOf read k) := hok k (by simp)
    rw [runMarkers_cons, ih _ (fun k2 h2 => hok k2 (by simp [h2]))]
    by_cases hb : bodyOf read k = b
    · rw [List.find?_cons_of_pos _ (by simp [hb])]
      by_cases hc : containsKeyB st.map (bodyOf read k) = true
      · have hmap : (processMarker read st k).map = st.map := by
          simp [processMarker, hr, emplace, hc]
        rw [hmap]
        obtain ⟨v, hv⟩ := lookupB_isSome_of_contains st.map (bodyOf read k) hc
        rw [hb] at hv
        rw [hv]
        rfl
      · have hc2 : containsKeyB st.map (bodyOf read k) = false := by
          cases h2 : containsKeyB st.map (bodyOf read k)
          · rfl
          · exact absurd h2 hc
        have hmap : (processMarker read st k).map
            = sortedInsert st.map (bodyOf read k, parentPathOf k) := by
          simp [processMarker, hr, emplace, hc2]
        rw [hmap]
        subst hb
        rw [lookupB_sortedInsert_self st.map _ _ hc2]
        rw [lookupB_eq_none st.map _ hc2]
        rfl
    · rw [List.find?_cons_of_neg _ (by simp [hb])]
      by_cases hc : containsKeyB st.map (bodyOf read k) = true
      · have hmap : (processMarker read st k).map = st.map := by
          simp [processMarker, hr, emplace, hc]
        rw [hmap]
      · have hc2 : containsKeyB st.map (bodyOf read k) = false := by
          cases h2 : containsKeyB st.map (bodyOf read k)
          · rfl
          · exact absurd h2 hc
        have hmap : (processMarker read st k).map
            = sortedInsert st.map (bodyOf read k, parentPathOf k) := by
          simp [processMarker, hr, emplace, hc2]
        rw [hmap]
        rw [lookupB_sortedInsert_ne st.map _ _ b (fun h2 => hb h2.symm)]

theorem runMarkers_distinct (read : Str → ReadResult) (ms : List Str) : ∀ st : LoadState,
    (∀ k ∈ ms, read k = .ok (bodyOf read k)) →
    ((ms.map (bodyOf read)).Nodup) →
    (∀ k ∈ ms, containsKeyB st.map (bodyOf read k) = false) →
    (runMarkers read st ms).firstError = st.firstError ∧
    (runMarkers read st ms).warnings = st.warnings ∧
    (runMarkers read st ms).map.length = st.map.length + ms.length ∧
    (∀ p : Str × Str, p ∈ (runMarkers read st ms).map
      ↔ p ∈ st.map ∨ ∃ k ∈ ms, p = (bodyOf read k, parentPathOf k)) := by
  induction ms with
  | nil =>
    intro st _ _ _
    rw [runMarkers_nil]
    simp
  | cons k rest ih =>
    intro st hok hnd hfresh
    have hr : read k = .ok (bodyOf read k) := hok k (by simp)
    have hc2 : containsKeyB st.map (bodyOf read k) = false := hfresh k (by simp)
    have hst : processMarker read st k
        = { st with map := sortedInsert st.map (bodyOf read k, parentPathOf k) } := by
      simp [processMarker, hr, emplace, hc2]
    rw [List.map_cons, List.nodup_cons] at hnd
    obtain ⟨hbk, hndrest⟩ := hnd
    have hfresh2 : ∀ k2 ∈ rest, containsKeyB (processMarker read st k).map (bodyOf read k2) = false := by
      intro k2 h2
      rw [hst]
      simp only
      rw [containsKeyB_false_iff]
      intro e he hek
      rcases (mem_sortedInsert _ _ e).mp he with h3 | h3
      · rw [h3] at hek
        simp only at hek
        exact hbk (by rw [hek]; exact List.mem_map.mpr ⟨k2, h2, rfl⟩)
      · exact (containsKeyB_false_iff _ _).mp (hfresh k2 (by simp [h2])) e h3 hek
    rw [runMarkers_cons]
    obtain ⟨ih1, ih2, ih3, ih4⟩ :=
      ih (processMarker read st k) (fun k2 h2 => hok k2 (by simp [h2])) hndrest hfresh2
    refine ⟨?_, ?_, ?_, ?_⟩
    · rw [ih1, hst]
    · rw [ih2, hst]
    · rw [ih3, hst]
      simp only [length_sortedInsert, List.length_cons]
      omega
    · intro p
      rw [ih4, hst]
      simp only
      rw [mem_sortedInsert]
      constructor
      · intro h2
        rcases h2 with (h3 | h3) | h3
        · exact Or.inr ⟨k, by simp, h3⟩
        · exact Or.inl h3
        · obtain ⟨k2, hk2, hp⟩ := h3
          exact Or.inr ⟨k2, by simp [hk2], hp⟩
      · intro h2
        rcases h2 with h3 | h3
        · exact Or.inl (Or.inr h3)
        · obtain ⟨k2, hk2, hp⟩ := h3
          rcases List.mem_cons.mp hk2 with h4 | h4
          · exact Or.inl (Or.inl (by rw [hp, h4]))
          · exact Or.inr ⟨k2, h4, hp⟩

/-! Classifier and path-decomposition lemmas. -/

theorem classifyEntry_eq_spec (sk : Str) (r2l : List (Str × Str)) (path : Str) :
    classifyEntry sk r2l path = classifySpecSide sk r2l path := by
  rw [classifyEntry, classifySpecSide, findSlashFrom]
  cases h : firstSlashIdx (path.drop sk.length) with
  | none => simp [h]
  | some i => simp [h, Nat.add_sub_cancel_left]

theorem slash_not_mem_filenameOf (s : Str) : '/' ∉ filenameOf s := by
  intro h
  rw [filenameOf, List.mem_reverse] at h
  have := List.mem_takeWhile_imp h
  simp at this

theorem filenameOf_split (s : Str) :
    s = s.take (s.length - (filenameOf s).length) ++ filenameOf s := by
  have h2 : s = (s.reverse.dropWhile (fun c => c != '/')).reverse ++ filenameOf s := by
    rw [filenameOf, ← List.reverse_append, List.takeWhile_append_dropWhile, List.reverse_reverse]
  generalize hA : (s.reverse.dropWhile (fun c => c != '/')).reverse = A at h2
  generalize hB : filenameOf s = B at h2 ⊢
  rw [h2, List.length_append]
  have h5 : A.length + B.length - B.length = A.length := by omega
  rw [h5, List.take_left]

theorem parentPathOf_ne_nil_of_slash (s : Str) (hs : '/' ∈ s) : parentPathOf s ≠ [] := by
  have hpre : s.take (s.length - (filenameOf s).length) ≠ [] := by
    intro h0
    have hsplit := filenameOf_split s
    rw [h0, List.nil_append] at hsplit
    rw [hsplit] at hs
    exact slash_not_mem_filenameOf s hs
  simp only [parentPathOf]
  by_cases hst : ((s.take (s.length - (filenameOf s).length)).reverse.dropWhile
      (fun c => c == '/')).reverse = []
  · rw [if_pos hst, if_neg hpre]
    simp
  · rw [if_neg hst]
    exact hst

theorem getLast?_drop_of_ne_nil (l : Str) (n : Nat) (h : l.drop n ≠ []) :
    (l.drop n).getLast? = l.getLast? := by
  conv_rhs => rw [← List.take_append_drop n l]
  rw [List.getLast?_append]
  cases hb : (l.drop n).getLast? with
  | some x => rfl
  | none =>
    rw [List.getLast?_eq_none_iff] at hb
    exact absurd hb h

theorem suffix_trailing_slash (key : Str) (n : Nat)
    (hlast : key.getLast? = some '/') (hne : key.drop n ≠ []) :
    (key.drop n).dropLast ++ ['/'] = key.drop n := by
  have h1 : (key.drop n).getLast? = some '/' := by
    rw [getLast?_drop_of_ne_nil key n hne, hlast]
  have h2 := List.dropLast_append_getLast hne
  have h3 : (key.drop n).getLast hne = '/' := by
    have h4 := List.getLast?_eq_getLast (key.drop n) hne
    rw [h4] at h1
    exact Option.some.inj h1
  rw [h3] at h2
  exact h2

/-! Claim theorems. -/

/-- C1: for every storage key, Path Map, local path and flat listing, the
Direct-Children Resolver classifies each listed entry by its suffix after
the storage key exactly as the spec states it (no-separator suffixes are
file names with the marker name skipped; suffixes with a separator resolve
through the remote-to-local table keyed by the key up to the first
separator, falling back to the remote substring), and returns a
duplicate-free set; on the worked example with query "/a/" it returns
exactly b, c, top.txt. -/
theorem claim_resolver_classification :
    (∀ (sk : Str) (pm : PathMap) (lp : Str) (rps : List Str),
      (getDirectChildrenOnRewritableDisk sk rps lp pm).Nodup ∧
      (∀ name : Str, name ∈ getDirectChildrenOnRewritableDisk sk rps lp pm ↔
        ∃ path ∈ rps, classifySpecSide sk (buildRemoteToLocal pm lp) path = some name)) ∧
    getDirectChildrenOnRewritableDisk ("/" : String).data listingEx ("/a/" : String).data pmEx
      = [("b" : String).data, ("c" : String).data, ("top.txt" : String).data] := by
  constructor
  · intro sk pm lp rps
    constructor
    · exact List.nodup_dedup _
    · intro name
      rw [getDirectChildrenOnRewritableDisk, List.mem_dedup, List.mem_filterMap]
      constructor
      · rintro ⟨path, hp, hc⟩
        exact ⟨path, hp, by rw [← classifyEntry_eq_spec]; exact hc⟩
      · rintro ⟨path, hp, hc⟩
        exact ⟨path, hp, by rw [classifyEntry_eq_spec]; exact hc⟩
  · decide

/-- C2: when all marker reads succeed and their bodies are pairwise
distinct, the load finishes without error, the map size equals the number
of marker keys, and the entries are exactly the (body, parent of the marker
key) pairs; non-marker keys contribute nothing. -/
theorem claim_load_distinct_paths (keys : List Str) (read : Str → ReadResult)
    (hok : ∀ k ∈ markerKeys keys, read k = .ok (bodyOf read k))
    (hnd : ((markerKeys keys).map (bodyOf read)).Nodup) :
    (loadRun read keys).firstError = none ∧
    loadPathPrefixMap read keys = .ok (loadRun read keys).map ∧
    (loadRun read keys).map.length = (markerKeys keys).length ∧
    (∀ p : Str × Str, p ∈ (loadRun read keys).map
      ↔ ∃ k ∈ markerKeys keys, p = (bodyOf read k, parentPathOf k)) := by
  have hfresh : ∀ k ∈ markerKeys keys, containsKeyB initLoadState.map (bodyOf read k) = false := by
    intro k _
    rfl
  obtain ⟨h1, _, h3, h4⟩ := runMarkers_distinct read (markerKeys keys) initLoadState hok hnd hfresh
  have hfe : (loadRun read keys).firstError = none := by
    rw [loadRun, h1]
    rfl
  refine ⟨hfe, ?_, ?_, ?_⟩
  · simp [loadPathPrefixMap, hfe]
  · rw [loadRun, h3]
    simp [initLoadState]
  · intro p
    rw [loadRun, h4]
    simp [initLoadState]

theorem claim_load_distinct_paths_witness :
    loadPathPrefixMap readW keysW
      = Except.ok [(("/a/b/" : String).data, ("p1" : String).data),
                   (("/a/c/" : String).data, ("p2" : String).data)] ∧
    (loadRun readW keysW).map.length = 2 := by
  have h := claim_load_distinct_paths keysW readW (by decide) (by decide)
  refine ⟨?_, ?_⟩
  · rw [h.2.1]
    rfl
  · rw [h.2.2.1]
    rfl

/-- C3: when markers duplicate a local path, the final map is key-unique,
the surviving binding of each local path is the parent of the first marker
processed with that body, a later insertion with an already-present local
path changes nothing except adding one warning, the entry count is the
number of distinct bodies, and the warning count is the number of dropped
duplicates. -/
theorem claim_load_duplicate_paths (keys : List Str) (read : Str → ReadResult)
    (hok : ∀ k ∈ markerKeys keys, read k = .ok (bodyOf read k))
    (hdup : ¬ ((markerKeys keys).map (bodyOf read)).Nodup) :
    NodupK (loadRun read keys).map ∧
    (∀ b k, (markerKeys keys).find? (fun k2 => bodyOf read k2 == b) = some k →
        lookupB (loadRun read keys).map b = some (parentPathOf k)) ∧
    (∀ (st : LoadState) (k : Str) (b : Str), read k = .ok b → containsKeyB st.map b = true →
        processMarker read st k = { st with warnings := st.warnings + 1 }) ∧
    (loadRun read keys).map.length = ((markerKeys keys).map (bodyOf read)).toFinset.card ∧
    (loadRun read keys).warnings
      = (markerKeys keys).length - ((markerKeys keys).map (bodyOf read)).toFinset.card := by
  have hnodup : NodupK (loadRun read keys).map := by
    rw [loadRun]
    exact runMarkers_nodupK read (markerKeys keys) initLoadState (by simp [initLoadState, NodupK])
  have hkeys : keysOf (loadRun read keys).map = ((markerKeys keys).map (bodyOf read)).toFinset := by
    rw [loadRun, runMarkers_keysOf read (markerKeys keys) initLoadState hok]
    simp [initLoadState, keysOf]
  have hlen : (loadRun read keys).map.length
      = ((markerKeys keys).map (bodyOf read)).toFinset.card := by
    rw [← hkeys, keysOf]
    rw [List.toFinset_card_of_nodup hnodup]
    rw [List.length_map]
  refine ⟨hnodup, ?_, ?_, hlen, ?_⟩
  · intro b k hfind
    rw [loadRun, runMarkers_lookup read (markerKeys keys) initLoadState hok b, hfind]
    rfl
  · intro st k b hr hc
    simp [processMarker, hr, emplace, hc]
  · have hsum := runMarkers_size_sum read (markerKeys keys) initLoadState hok
    rw [← loadRun, hlen] at hsum
    have hcard : ((markerKeys keys).map (bodyOf read)).toFinset.card
        ≤ (markerKeys keys).length := by
      calc ((markerKeys keys).map (bodyOf read)).toFinset.card
          ≤ ((markerKeys keys).map (bodyOf read)).length := List.toFinset_card_le _
        _ = (markerKeys keys).length := List.length_map _ _
    simp only [initLoadState, List.length_nil] at hsum
    omega

theorem claim_load_duplicate_paths_witness :
    lookupB (loadRun readDup keysW).map ("/a/b/" : String).data = some ("p1" : String).data ∧
    (loadRun readDup keysW).map.length = 1 ∧
    (loadRun readDup keysW).warnings = 1 := by
  have h := claim_load_duplicate_paths keysW readDup (by decide) (by decide)
  refine ⟨h.2.1 (("/a/b/" : String).data) (("p1/prefix.path" : String).data) (by decide), ?_, ?_⟩
  · rw [h.2.2.2.1]
    decide
  · rw [h.2.2.2.2]
    decide

/-- C4: a not-found read leaves the load exactly as if that unit had never
been scheduled and does not abort it; if no marker read is fatal the load
returns its map; if any reads are fatal, the first fatal error in
scheduling order is the one surfaced and later ones are suppressed. -/
theorem claim_load_error_policy (keys : List Str) (read : Str → ReadResult) :
    (loadRun read keys
        = runMarkers read initLoadState ((markerKeys keys).filter (survives read))) ∧
    (∀ (st : LoadState) (k : Str), read k = .notFound → processMarker read st k = st) ∧
    ((∀ k ∈ markerKeys keys, fatalOf (read k) = none) →
        loadPathPrefixMap read keys = .ok (loadRun read keys).map) ∧
    (∀ e, (markerKeys keys).findSome? (fun k => fatalOf (read k)) = some e →
        loadPathPrefixMap read keys = .error e) := by
  refine ⟨?_, ?_, ?_, ?_⟩
  · exact runMarkers_drop_notFound read (markerKeys keys) initLoadState
  · intro st k h
    simp [processMarker, h]
  · intro hnf
    have h1 : (loadRun read keys).firstError = none := by
      rw [loadRun, runMarkers_firstError read (markerKeys keys) initLoadState]
      rw [List.findSome?_eq_none_iff.mpr hnf]
      rfl
    simp [loadPathPrefixMap, h1]
  · intro e he
    have h1 : (loadRun read keys).firstError = some e := by
      rw [loadRun, runMarkers_firstError read (markerKeys keys) initLoadState, he]
      rfl
    simp [loadPathPrefixMap, h1]

theorem claim_load_error_policy_witness :
    loadPathPrefixMap readNF keysW
      = Except.ok [(("/a/c/" : String).data, ("p2" : String).data)] ∧
    loadPathPrefixMap readFatal keysW = Except.error ("io1" : String).data := by
  have h1 := (claim_load_error_policy keysW readNF).2.2.1 (by decide)
  have h2 := (claim_load_error_policy keysW readFatal).2.2.2 (("io1" : String).data) (by decide)
  refine ⟨?_, h2⟩
  rw [h1]
  rfl

/-- C5 counterexample: on a concrete write-once storage with one marker
key, construction does fail with the configuration error, yet the
construction order shows the key-space iteration and the metric publication
happening before the write-once check — so the claim that the check comes
before any iteration, with no scan performed, is false on the code. -/
theorem claim_writeOnce_scan_cex :
    construct storageWO = Except.error CtorError.writeOnceError ∧
    constructEvents storageWO
      = [Event.iterated ("q/prefix.path" : String).data,
         Event.metricAdd 1, Event.checkedWriteOnce, Event.threwWriteOnce] := by
  constructor
  · rfl
  · rfl

/-- C5 (amended): for every write-once storage whose load completes without
a fatal read error, construction fails with the LOGICAL_ERROR configuration
exception, but the check happens only after the member initializer has run
the full load: the construction order is all key iterations, then the
metric publication, then the write-once check, then the throw. -/
theorem claim_writeOnce_rejection (s : ObjectStorage)
    (hw : s.isWriteOnce = true) (hok : (loadRunS s).firstError = none) :
    construct s = Except.error CtorError.writeOnceError ∧
    constructEvents s
      = s.keys.map Event.iterated
          ++ [Event.metricAdd (loadRunS s).map.length, Event.checkedWriteOnce,
              Event.threwWriteOnce] := by
  constructor
  · simp [construct, hok, hw]
  · simp [constructEvents, hok, hw]

theorem claim_writeOnce_rejection_witness :
    storageWO.isWriteOnce = true ∧ (loadRunS storageWO).firstError = none ∧
    construct storageWO = Except.error CtorError.writeOnceError :=
  ⟨rfl, rfl, (claim_writeOnce_rejection storageWO rfl rfl).1⟩

/-- C7 counterexample: on the same write-once storage, construction fails
while the directory-map-size metric keeps a net increment of one — the
metric publication from the completed load is never retracted, so the claim
that no metric increment remains published after a failed construction is
false on the code. -/
theorem claim_construction_metric_cex :
    construct storageWO = Except.error CtorError.writeOnceError ∧
    constructMetricDelta storageWO = 1 := by
  constructor
  · rfl
  · rfl

/-- C7 (amended): construction either fully succeeds (map built, metric
incremented by its size) or fails by exception; a failure of the load
itself leaves no metric increment, but the write-once rejection happens
after the load already published the metric, whose increment then remains.
-/
theorem claim_construction_metric_policy (s : ObjectStorage) :
    (∀ e, (loadRunS s).firstError = some e →
        construct s = Except.error (CtorError.loadError e) ∧ constructMetricDelta s = 0) ∧
    ((loadRunS s).firstError = none → s.isWriteOnce = false →
        construct s = Except.ok (loadRunS s).map ∧
        constructMetricDelta s = ((loadRunS s).map.length : Int)) ∧
    ((loadRunS s).firstError = none → s.isWriteOnce = true →
        construct s = Except.error CtorError.writeOnceError ∧
        constructMetricDelta s = ((loadRunS s).map.length : Int)) := by
  refine ⟨?_, ?_, ?_⟩
  · intro e he
    constructor
    · simp [construct, he]
    · simp [constructMetricDelta, he]
  · intro h1 h2
    constructor
    · simp [construct, h1, h2]
    · simp [constructMetricDelta, h1]
  · intro h1 h2
    constructor
    · simp [construct, h1, h2]
    · simp [constructMetricDelta, h1]

theorem claim_construction_metric_policy_witness :
    construct storageOK = Except.ok [(("/d/" : String).data, ("q" : String).data)] ∧
    constructMetricDelta storageOK = 1 ∧
    construct storageWO = Except.error CtorError.writeOnceError ∧
    constructMetricDelta storageWO = 1 := by
  have h1 := (claim_construction_metric_policy storageOK).2.1 rfl rfl
  have h2 := (claim_construction_metric_policy storageWO).2.2 rfl rfl
  exact ⟨h1.1, h1.2, h2.1, h2.2⟩

/-- C8: a successful construction increments the metric exactly once, after
all key iterations, by the final map size; destruction decrements it by the
same amount, so an attach/detach cycle nets zero. -/
theorem claim_metric_roundtrip (s : ObjectStorage) (m : PathMap)
    (h : construct s = Except.ok m) :
    constructMetricDelta s = (m.length : Int) ∧
    constructMetricDelta s + destructorMetricDelta m = 0 ∧
    constructEvents s
      = s.keys.map Event.iterated
          ++ [Event.metricAdd m.length, Event.checkedWriteOnce, Event.installedKeyGen] := by
  cases hf : (loadRunS s).firstError with
  | some e => simp [construct, hf] at h
  | none =>
    cases hw : s.isWriteOnce with
    | true => simp [construct, hf, hw] at h
    | false =>
      simp only [construct, hf, hw, Bool.false_eq_true, if_false] at h
      have hm : m = (loadRunS s).map := by
        cases h
        rfl
      subst hm
      refine ⟨?_, ?_, ?_⟩
      · simp [constructMetricDelta, hf]
      · simp [constructMetricDelta, destructorMetricDelta, hf]
      · simp [constructEvents, hf, hw]

theorem claim_metric_roundtrip_witness :
    construct storageOK = Except.ok [(("/d/" : String).data, ("q" : String).data)] ∧
    constructMetricDelta storageOK
        + destructorMetricDelta [(("/d/" : String).data, ("q" : String).data)] = 0 :=
  ⟨rfl, (claim_metric_roundtrip storageOK [(("/d/" : String).data, ("q" : String).data)] rfl).2.1⟩

/-- C9: every key selected by the loader (final path component equal to the
marker file name) that contains a path separator has a nonempty parent
path, so the chassert(remote_path.has_parent_path()) guarding the insertion
never fires for keys produced under a root with a directory component. -/
theorem claim_marker_parent_assert (key : Str)
    (hm : filenameOf key = PREFIX_PATH_FILE_NAME) (hs : '/' ∈ key) :
    parentPathOf key ≠ [] :=
  parentPathOf_ne_nil_of_slash key hs

theorem claim_marker_parent_assert_witness :
    filenameOf ("p1/prefix.path" : String).data = PREFIX_PATH_FILE_NAME ∧
    '/' ∈ ("p1/prefix.path" : String).data ∧
    parentPathOf ("p1/prefix.path" : String).data ≠ [] :=
  ⟨by decide, by decide, claim_marker_parent_assert (("p1/prefix.path" : String).data)
    (by decide) (by decide)⟩

/-- C10: a listed remote path equal to the storage key itself yields the
empty suffix, which has no separator and differs from the marker file name,
so the resolver records the empty string as a child name. -/
theorem claim_empty_suffix_child :
    getDirectChildrenOnRewritableDisk ("d/" : String).data [("d/" : String).data]
        ("/a/" : String).data [] = [[]] ∧
    [] ∈ getDirectChildrenOnRewritableDisk ("d/" : String).data [("d/" : String).data]
        ("/a/" : String).data [] := by
  constructor
  · decide
  · decide

/-- C6: on a Path Map sorted by the byte order of its local paths, the
step-1 scan from lower_bound, stopped at the first key that does not start
with the query path, visits exactly the entries whose key starts with the
query path; the resulting table is exactly the entries with one separator
beyond the query length, each mapped from its remote prefix to the child
name; and for keys ending in the separator that child name is the suffix
with the trailing separator removed. -/
theorem claim_pathmap_range_scan (pm : PathMap) (lp : Str)
    (hs : pm.Pairwise (fun a b => strLtB a.1 b.1 = true)) :
    ((pm.dropWhile (fun e => strLtB e.1 lp)).takeWhile (fun e => isPrefixOfB lp e.1))
      = pm.filter (fun e => isPrefixOfB lp e.1) ∧
    buildRemoteToLocal pm lp
      = (pm.filter (fun e => isPrefixOfB lp e.1
            && ((e.1.drop lp.length).count '/' == 1))).map
          (fun e => (e.2, (e.1.drop lp.length).dropLast)) ∧
    (∀ e ∈ pm, e.1.getLast? = some '/' →
      (e.1.drop lp.length).count '/' = 1 →
      ((e.1.drop lp.length).dropLast) ++ ['/'] = e.1.drop lp.length) := by
  refine ⟨scan_eq_filter lp pm hs, ?_, ?_⟩
  · rw [buildRemoteToLocal, scan_eq_filter lp pm hs, filterMap_guard, List.filter_filter]
    congr 1
    apply List.filter_congr
    intro a _
    rw [Bool.and_comm]
  · intro e _ hlast hcount
    apply suffix_trailing_slash e.1 lp.length hlast
    intro h0
    rw [h0] at hcount
    simp at hcount

theorem claim_pathmap_range_scan_witness :
    pmEx.Pairwise (fun a b => strLtB a.1 b.1 = true) ∧
    buildRemoteToLocal pmEx ("/a/" : String).data
      = [(("p1" : String).data, ("b" : String).data),
         (("p2" : String).data, ("c" : String).data)] := by
  refine ⟨by decide, ?_⟩
  rw [(claim_pathmap_range_scan pmEx (("/a/" : String).data) (by decide)).2.1]
  decide

end PlainRW
